import Mathlib

/-!
Verification development for the MNN buffer-allocator subsystem
(BufferAllocator.hpp, Backend.hpp, OpenCLBackend.hpp).

The repository ships only the headers of the allocator: the bodies of
BufferAllocator::alloc, free, returnMemory, getFromFreeList,
allocHeuristically, moveTensor2bottom and adaptTensorToNewAddress are
declared in src/source/core/BufferAllocator.hpp but not defined there.
Those operations are therefore modelled from the specification text
(spec.md section 4.2 - 4.4), faithfully to its words, over a shallow
state-machine embedding: the split tree of Node records becomes an
inductive binary tree whose leaves are the currently tracked ranges,
the size-keyed free-list multimap becomes the list of free leaves with
a best-fit selection function, and the used list becomes the list of
used leaves.  The hybrid-threshold macro and the OpenCL backend stubs
are translated directly from the source.
-/

namespace MNN

/-- Rounding of a requested byte size up to the pool alignment
(spec 4.3: round size up to alignment). -/
def alignUp (align sz : Nat) : Nat :=
  if align = 0 then sz else align * ((sz + align - 1) / align)

/-- Range: a contiguous byte extent described by (base, size)
(spec section 3, the opaque pair handed out by the pool). -/
structure Range where
  base : Nat
  size : Nat
deriving DecidableEq, Repr

namespace BufferAllocator

/-- Modelled from the spec: the split tree of Node records
(BufferAllocator::Node, declared in BufferAllocator.hpp lines 122-135,
body of the tree maintenance missing from src).  A leaf is a currently
tracked range, either used (in the used list) or free (in the free
list); an inner node is a range that has been split into exactly two
children. -/
inductive NTree where
  | leaf (r : Range) (used : Bool)
  | node (r : Range) (l : NTree) (rc : NTree)
deriving DecidableEq, Repr

namespace NTree

/-- Range covered by the top node of a tree. -/
def topRange : NTree → Range
  | leaf r _ => r
  | node r _ _ => r

/-- Ranges of the free leaves, in traversal order: the contribution of
one root to the FREELIST multimap. -/
def freeLeaves : NTree → List Range
  | leaf r used => if used then [] else [r]
  | node _ l rc => freeLeaves l ++ freeLeaves rc

/-- Ranges of the used leaves: the contribution of one root to
mUsedList. -/
def usedLeaves : NTree → List Range
  | leaf r used => if used then [r] else []
  | node _ l rc => usedLeaves l ++ usedLeaves rc

end NTree

/-- Test for a leaf currently on the free list. -/
def isFreeLeaf : NTree → Bool
  | NTree.leaf _ used => !used
  | NTree.node _ _ _ => false

/-- Maximal merging: no node keeps two children that are both free
leaves, since returnMemory would have coalesced them. -/
def maxMerged : NTree → Bool
  | NTree.leaf _ _ => true
  | NTree.node _ l rc => maxMerged l && maxMerged rc && !(isFreeLeaf l && isFreeLeaf rc)

/-- Every leaf of the tree is free. -/
def allFree : NTree → Bool
  | NTree.leaf _ used => !used
  | NTree.node _ l rc => allFree l && allFree rc

/-- Partition invariant of one split (spec section 8): the children of
a node cover its range exactly and contiguously. -/
def partitionOK : NTree → Bool
  | NTree.leaf _ _ => true
  | NTree.node r l rc =>
    ((l.topRange.base + l.topRange.size == rc.topRange.base) &&
      (l.topRange.size + rc.topRange.size == r.size)) &&
    (partitionOK l && partitionOK rc)

/-- Alignment of one range to the pool alignment. -/
def rangeAligned (align : Nat) (r : Range) : Bool :=
  r.base % align == 0 && r.size % align == 0

/-- Alignment of every range tracked in a tree. -/
def treeAligned (align : Nat) : NTree → Bool
  | NTree.leaf r _ => rangeAligned align r
  | NTree.node r l rc =>
    rangeAligned align r && (treeAligned align l && treeAligned align rc)

/-- Best fit over the free list (spec 4.2: find the smallest free node
with node.size at least the request; the multimap lower-bound lookup).
Ties are broken by keeping the earliest candidate, which the spec
leaves open. -/
def bestFit (l : List Range) (req : Nat) : Option Range :=
  match l with
  | [] => none
  | r :: rest =>
    match bestFit rest req with
    | none => if req ≤ r.size then some r else none
    | some b => if req ≤ r.size ∧ r.size ≤ b.size then some r else some b

/-- Modelled from the spec: the body of the split half of
BufferAllocator::getFromFreeList (declared in BufferAllocator.hpp line
140, body missing from src).  Rewrites the first free leaf carrying
the chosen range: if splitting is permitted and the node is larger
than the request by at least one alignment unit, create a left child
covering exactly the aligned request and a right free child covering
the remainder, mark the left child used and hand it out; otherwise
take the whole node as is. -/
def markOrSplit (align req : Nat) (permitSplit : Bool) (target : Range) :
    NTree → Option (NTree × Range)
  | NTree.leaf r used =>
    if used then none
    else if r = target then
      if permitSplit ∧ req + align ≤ r.size then
        some (NTree.node r
          (NTree.leaf ⟨r.base, req⟩ true)
          (NTree.leaf ⟨r.base + req, r.size - req⟩ false),
          ⟨r.base, req⟩)
      else
        some (NTree.leaf r true, r)
    else none
  | NTree.node r l rc =>
    match markOrSplit align req permitSplit target l with
    | some (l2, h) => some (NTree.node r l2 rc, h)
    | none =>
      match markOrSplit align req permitSplit target rc with
      | some (rc2, h) => some (NTree.node r l rc2, h)
      | none => none

/-- Lifting of markOrSplit over the forest of roots: the first root
holding the chosen free leaf is rewritten. -/
def markOrSplitForest (align req : Nat) (permitSplit : Bool) (target : Range) :
    List NTree → Option (List NTree × Range)
  | [] => none
  | t :: ts =>
    match markOrSplit align req permitSplit target t with
    | some (t2, h) => some (t2 :: ts, h)
    | none =>
      match markOrSplitForest align req permitSplit target ts with
      | some (ts2, h) => some (t :: ts2, h)
      | none => none

/-- Coalescing step of returnMemory (spec 4.2): when both children of a
parent are free leaves they are merged back and the parent becomes a
single free node. -/
def mergeMaybe (r : Range) (l rc : NTree) : NTree :=
  if isFreeLeaf l && isFreeLeaf rc then NTree.leaf r false else NTree.node r l rc

/-- Modelled from the spec: the body of BufferAllocator::returnMemory
(declared in BufferAllocator.hpp line 139, body missing from src).
Finds the used leaf carrying the released range and marks it free;
with permitMerge, whenever the released node and its immediate sibling
are both free they are detached and the parent becomes free in turn,
recursing upward (the structural return realises the recursion with
the parent).  Returns none when no used leaf carries the range. -/
def returnMemoryTree (permitMerge : Bool) (target : Range) :
    NTree → Option NTree
  | NTree.leaf r used =>
    if used ∧ r = target then some (NTree.leaf r false) else none
  | NTree.node r l rc =>
    match returnMemoryTree permitMerge target l with
    | some l2 => some (if permitMerge then mergeMaybe r l2 rc else NTree.node r l2 rc)
    | none =>
      match returnMemoryTree permitMerge target rc with
      | some rc2 => some (if permitMerge then mergeMaybe r l rc2 else NTree.node r l rc2)
      | none => none

/-- Lifting of returnMemoryTree over the forest of roots. -/
def returnMemoryForest (permitMerge : Bool) (target : Range) :
    List NTree → Option (List NTree)
  | [] => none
  | t :: ts =>
    match returnMemoryTree permitMerge target t with
    | some t2 => some (t2 :: ts)
    | none =>
      match returnMemoryForest permitMerge target ts with
      | some ts2 => some (t :: ts2)
      | none => none

/-- Modelled from the spec: the state of one BufferAllocator instance
(fields of BufferAllocator.hpp lines 142-157).  roots is the forest of
split trees over every range obtained from the source; nextBase is the
watermark of the underlying source, which hands out aligned fresh
bases; granted records every range the source has granted (the
original root set of the round-trip property). -/
structure AllocState where
  roots : List NTree
  nextBase : Nat
  mTotalSize : Nat
  mUsedSize : Nat
  granted : List Range
deriving DecidableEq, Repr

/-- Empty pool, as built by the BufferAllocator constructor
(BufferAllocator.hpp lines 43-47: totals start at zero). -/
def initState : AllocState :=
  { roots := [], nextBase := 0, mTotalSize := 0, mUsedSize := 0, granted := [] }

/-- Free list of a state: free leaves of every root, in order (the
FREELIST multimap contents). -/
def freeListOf (s : AllocState) : List Range :=
  s.roots.flatMap NTree.freeLeaves

/-- Used list of a state: used leaves of every root (the mUsedList
contents). -/
def usedListOf (s : AllocState) : List Range :=
  s.roots.flatMap NTree.usedLeaves

/-- Modelled from the spec: BufferAllocator::getFromFreeList (declared
in BufferAllocator.hpp line 140, body missing from src).  Best fit
over the free list; on a miss the state is returned unchanged with no
range. -/
def getFromFreeList (align : Nat) (s : AllocState) (req : Nat)
    (permitSplit : Bool) : AllocState × Option Range :=
  match bestFit (freeListOf s) req with
  | none => (s, none)
  | some target =>
    match markOrSplitForest align req permitSplit target s.roots with
    | some (roots2, h) => ({ s with roots := roots2 }, some h)
    | none => (s, none)

/-- Fresh root obtained from the underlying source (spec 4.1/4.3): the
source grants an aligned range of exactly the aligned request at its
watermark; the new root enters the used list. -/
def freshRoot (s : AllocState) (req : Nat) : AllocState × Range :=
  let r : Range := ⟨s.nextBase, req⟩
  ({ roots := s.roots ++ [NTree.leaf r true],
     nextBase := s.nextBase + req,
     mTotalSize := s.mTotalSize + req,
     mUsedSize := s.mUsedSize + req,
     granted := s.granted ++ [r] }, r)

/-- Modelled from the spec: BufferAllocator::alloc (declared in
BufferAllocator.hpp line 65, body missing from src).  Rounds the size
up to alignment; with seperate set it skips the free list and obtains
a fresh root; otherwise it tries the free list with splitting
permitted and falls back to a fresh root on a miss, leaving the free
list unchanged by the failed lookup. -/
def alloc (align : Nat) (s : AllocState) (size : Nat) (seperate : Bool) :
    AllocState × Range :=
  let req := alignUp align size
  if seperate then freshRoot s req
  else
    match getFromFreeList align s req true with
    | (s2, some h) => ({ s2 with mUsedSize := s2.mUsedSize + h.size }, h)
    | (_, none) => freshRoot s req

/-- Modelled from the spec: BufferAllocator::free (declared in
BufferAllocator.hpp line 78, body missing from src).  Looks the pair
up in the used list; when absent it returns false and changes nothing;
otherwise the node returns to the free list through returnMemory with
merging permitted and the used-size counter drops. -/
def free (s : AllocState) (p : Range) : AllocState × Bool :=
  match returnMemoryForest true p s.roots with
  | some roots2 =>
    ({ s with roots := roots2, mUsedSize := s.mUsedSize - p.size }, true)
  | none => (s, false)

/-- State-level returnMemory with an explicit permitMerge flag, as the
private method takes it; an unknown range leaves the state unchanged. -/
def returnMemoryS (permitMerge : Bool) (s : AllocState) (p : Range) :
    AllocState :=
  match returnMemoryForest permitMerge p s.roots with
  | some roots2 => { s with roots := roots2 }
  | none => s

/-- Public operations of the pool that the round-trip and invariant
claims quantify over. -/
inductive Op where
  | alloc (size : Nat) (seperate : Bool)
  | free (p : Range)
deriving DecidableEq, Repr

/-- One public call on the pool. -/
def step (align : Nat) (s : AllocState) : Op → AllocState
  | Op.alloc size sep => (alloc align s size sep).1
  | Op.free p => (free s p).1

/-- State reached from the empty pool by a sequence of public calls. -/
def run (align : Nat) (ops : List Op) : AllocState :=
  ops.foldl (step align) initState

end BufferAllocator

/-- Tensor as the allocator sees it: a stable identifier plus the
(base, offset) binding published onto it. -/
structure HTensor where
  id : String
  base : Nat
  offset : Nat
deriving DecidableEq, Repr

namespace BufferAllocator

/-- Update of one key of a string-keyed size map (mAllocatedSize,
mHeuristicStrategy are std::map from string to size). -/
def setKey (k : String) (v : Nat) : List (String × Nat) → List (String × Nat)
  | [] => [(k, v)]
  | (k2, v2) :: rest => if k2 = k then (k, v) :: rest else (k2, v2) :: setKey k v rest

/-- Modelled from the spec: the heuristic-placement state of a
BufferAllocator (fields of BufferAllocator.hpp lines 151-157).  The
plan maps tensor identifiers to offsets inside a single arena at
mHeuristicPtr of mHeuristicSize bytes. -/
structure HeurState where
  mHeuristicStrategy : List (String × Nat)
  mAllocatedSize : List (String × Nat)
  mHeuristicPtr : Nat
  mHeuristicSize : Nat
  mDisableHeuristicWhileAdapting : Bool
  shrinkPointer : Nat
  tensorReversedAfterShrink : List HTensor
deriving DecidableEq, Repr

/-- Modelled from the spec: BufferAllocator::allocHeuristically
(declared in BufferAllocator.hpp line 67, body missing from src).
Looks the identifier up in the plan and returns the arena base plus
the planned offset, recording the size in mAllocatedSize; it fails on
a plan miss, and no new heuristic allocation interleaves while a
shrink is adapting. -/
def allocHeuristically (st : HeurState) (id : String) (size : Nat) :
    HeurState × Option Range :=
  if st.mDisableHeuristicWhileAdapting then (st, none)
  else
    match st.mHeuristicStrategy.lookup id with
    | none => (st, none)
    | some off =>
      ({ st with mAllocatedSize := setKey id size st.mAllocatedSize },
        some ⟨st.mHeuristicPtr + off, size⟩)

/-- Modelled from the spec: BufferAllocator::freeHeuristically
(declared in BufferAllocator.hpp line 68, body missing from src).
Removes the identifier from mAllocatedSize; the arena itself is not
released. -/
def freeHeuristically (st : HeurState) (id : String) (pointer : Range) :
    HeurState × Bool :=
  ({ st with mAllocatedSize := st.mAllocatedSize.filter (fun p => p.1 ≠ id) }, true)

/-- Size that a live tensor occupies in the arena, read from
mAllocatedSize. -/
def allocatedSizeOf (st : HeurState) (id : String) : Nat :=
  (st.mAllocatedSize.lookup id).getD 0

/-- Re-packing fold of moveTensor2bottom: assigns contiguous offsets
from the bottom of a notional arena of the new budget, failing as soon
as the watermark would exceed the budget. -/
def packOffsets (sizes : String → Nat) (budget : Nat) :
    List HTensor → Nat → Option (List HTensor)
  | [], _ => some []
  | t :: ts, w =>
    if w + sizes t.id ≤ budget then
      match packOffsets sizes budget ts (w + sizes t.id) with
      | some rest => some ({ t with offset := w } :: rest)
      | none => none
    else none

/-- Modelled from the spec: BufferAllocator::moveTensor2bottom
(declared in BufferAllocator.hpp line 116, body missing from src).
Sorts the live tensors by current offset, re-packs them contiguously
from the bottom of a notional arena of the new budget, records the
watermark in shrinkPointer and the re-packed list in
tensorReversedAfterShrink, sets mDisableHeuristicWhileAdapting, and
returns the re-packed list; when the re-packing would exceed the new
budget it fails and the state is unchanged. -/
def moveTensor2bottom (st : HeurState) (tensors : List HTensor)
    (bgt_new : Nat) : HeurState × Option (List HTensor) :=
  let sorted := tensors.insertionSort (fun a b => a.offset ≤ b.offset)
  match packOffsets (allocatedSizeOf st) bgt_new sorted 0 with
  | some packed =>
    ({ st with
        shrinkPointer := (sorted.map (fun t => allocatedSizeOf st t.id)).sum,
        tensorReversedAfterShrink := packed,
        mDisableHeuristicWhileAdapting := true }, some packed)
  | none => (st, none)

/-- Modelled from the spec: BufferAllocator::adaptTensorToNewAddress
(declared in BufferAllocator.hpp line 117, body missing from src).
Publishes the new (base, offset) bindings recorded by the shrink onto
the given tensors and clears mDisableHeuristicWhileAdapting. -/
def adaptTensorToNewAddress (st : HeurState) (tensors : List HTensor) :
    HeurState × List HTensor × Bool :=
  ({ st with mDisableHeuristicWhileAdapting := false },
    tensors.map (fun t =>
      match st.tensorReversedAfterShrink.find? (fun u => u.id == t.id) with
      | some u => { t with base := st.mHeuristicPtr, offset := u.offset }
      | none => t),
    true)

end BufferAllocator

/-- Threshold of hybrid dynamic buffer allocation, translated from the
macro MNN_HYBRID_DYNAMIC_THRESHOLD in Backend.hpp line 26. -/
def MNN_HYBRID_DYNAMIC_THRESHOLD : Nat := 1 <<< 22

/-- Destination a hybrid buffer request is routed to. -/
inductive HybridSource where
  | pool
  | os
deriving DecidableEq, Repr

/-- Modelled from the spec: the routing rule of the hybrid dynamic
path, documented at the macro (Backend.hpp lines 23-25: below the
threshold the request is served from the memory pool, otherwise from
the OS); the onRequireBufferHybrid implementations, pure virtual in
Backend.hpp line 178, are outside src. -/
def hybridRoute (size thres : Nat) : HybridSource :=
  if size < thres then HybridSource.pool else HybridSource.os

namespace OpenCL

/-- State of an OpenCLBackend as far as the buffer entry points can
touch it (the lazily grown host bounce buffer of OpenCLBackend.hpp
line 177). -/
structure OpenCLBackendState where
  mHostBufferSize : Nat
deriving DecidableEq, Repr

namespace OpenCLBackend

/-- OpenCLBackend::onRequireBufferFromOS (OpenCLBackend.hpp line 104):
the body is exactly return true. -/
def onRequireBufferFromOS (st : OpenCLBackendState) (tensor : HTensor) :
    OpenCLBackendState × Bool :=
  (st, true)

/-- OpenCLBackend::onFreeBufferToOS (OpenCLBackend.hpp line 105): the
body is exactly return true. -/
def onFreeBufferToOS (st : OpenCLBackendState) (tensor : HTensor) :
    OpenCLBackendState × Bool :=
  (st, true)

/-- OpenCLBackend::onRequireBufferHybrid (OpenCLBackend.hpp line 106):
the body is exactly return true, whatever the threshold argument. -/
def onRequireBufferHybrid (st : OpenCLBackendState) (tensor : HTensor)
    (hybrid_thres : Nat) : OpenCLBackendState × Bool :=
  (st, true)

/-- OpenCLBackend::onFreeBufferHybrid (OpenCLBackend.hpp line 107):
the body is exactly return true, whatever the threshold argument. -/
def onFreeBufferHybrid (st : OpenCLBackendState) (tensor : HTensor)
    (hybrid_thres : Nat) : OpenCLBackendState × Bool :=
  (st, true)

/-- OpenCLBackend::adaptTensorToNewAddress (OpenCLBackend.hpp line
126): the override ignores its argument and returns false. -/
def adaptTensorToNewAddress (st : OpenCLBackendState)
    (tensors : List HTensor) : OpenCLBackendState × Bool :=
  (st, false)

end OpenCLBackend

end OpenCL

/-! Helper lemmas about the heuristic placement layer. -/

namespace BufferAllocator

/-- Among tensors with pairwise distinct identifiers, the search for a
member's identifier finds that member. -/
lemma find_mem_of_nodup_ids (l : List HTensor) (t : HTensor)
    (hnd : (l.map HTensor.id).Nodup) (ht : t ∈ l) :
    l.find? (fun u => u.id == t.id) = some t := by
  induction l with
  | nil => cases ht
  | cons h rest ih =>
    simp only [List.map_cons, List.nodup_cons] at hnd
    rcases List.mem_cons.mp ht with rfl | hmem
    · simp [List.find?]
    · have hne : (h.id == t.id) = false := by
        rw [beq_eq_false_iff_ne]
        intro he
        exact hnd.1 (he ▸ List.mem_map_of_mem HTensor.id hmem)
      simp [List.find?, hne, ih hnd.2 hmem]

/-- Fields of the state recorded by a successful shrink. -/
lemma moveTensor2bottom_some_fields (st : HeurState) (ts : List HTensor)
    (bgt : Nat) (st2 : HeurState) (packed : List HTensor)
    (h : moveTensor2bottom st ts bgt = (st2, some packed)) :
    st2.tensorReversedAfterShrink = packed ∧
      st2.mHeuristicPtr = st.mHeuristicPtr ∧
      st2.mDisableHeuristicWhileAdapting = true := by
  cases hp : packOffsets (allocatedSizeOf st) bgt
      (ts.insertionSort (fun a b => a.offset ≤ b.offset)) 0 with
  | none => simp [moveTensor2bottom, hp] at h
  | some l =>
    simp only [moveTensor2bottom, hp, Prod.mk.injEq, Option.some.injEq] at h
    obtain ⟨h1, h2⟩ := h
    subst h1 h2
    exact ⟨rfl, rfl, rfl⟩

/-- Re-packing fails as soon as the remaining sizes cannot fit above
the current watermark. -/
lemma packOffsets_none_of_exceeds (sizes : String → Nat) (budget : Nat)
    (l : List HTensor) (w : Nat) (hw : w ≤ budget)
    (h : budget < w + (l.map (fun t => sizes t.id)).sum) :
    packOffsets sizes budget l w = none := by
  induction l generalizing w with
  | nil => simp at h; omega
  | cons t rest ih =>
    by_cases hfit : w + sizes t.id ≤ budget
    · have hrec : packOffsets sizes budget rest (w + sizes t.id) = none := by
        refine ih (w + sizes t.id) hfit ?_
        simp only [List.map_cons, List.sum_cons] at h
        omega
      simp [packOffsets, hfit, hrec]
    · simp [packOffsets, hfit]

/-! Helper lemmas about the free-list best-fit lookup. -/

/-- Best fit misses exactly when no free node is large enough. -/
lemma bestFit_eq_none_iff (l : List Range) (req : Nat) :
    bestFit l req = none ↔ ∀ r ∈ l, r.size < req := by
  induction l with
  | nil => simp [bestFit]
  | cons r rest ih =>
    cases hb : bestFit rest req with
    | none =>
      by_cases hr : req ≤ r.size
      · simp only [bestFit, hb, if_pos hr]
        constructor
        · intro h; exact Option.noConfusion h
        · intro h; exact absurd hr (Nat.not_le.mpr (h r (List.mem_cons_self r rest)))
      · simp only [bestFit, hb, if_neg hr, List.mem_cons, true_iff]
        intro x hx
        rcases hx with rfl | hx
        · exact Nat.not_le.mp hr
        · exact (ih.mp hb) x hx
    | some b =>
      constructor
      · intro h
        by_cases hc : req ≤ r.size ∧ r.size ≤ b.size
        · simp only [bestFit, hb, if_pos hc] at h
          exact Option.noConfusion h
        · simp only [bestFit, hb, if_neg hc] at h
          exact Option.noConfusion h
      · intro h
        have hnone : bestFit rest req = none :=
          ih.mpr (fun x hx => h x (List.mem_cons_of_mem r hx))
        rw [hnone] at hb
        exact Option.noConfusion hb

/-- A best-fit result is a member of the free list and fits the
request. -/
lemma bestFit_some_mem (l : List Range) (req : Nat) (b : Range)
    (h : bestFit l req = some b) : b ∈ l ∧ req ≤ b.size := by
  induction l generalizing b with
  | nil => cases h
  | cons r rest ih =>
    cases hb : bestFit rest req with
    | none =>
      by_cases hr : req ≤ r.size
      · simp only [bestFit, hb, if_pos hr, Option.some.injEq] at h
        subst h
        exact ⟨List.mem_cons_self r rest, hr⟩
      · simp only [bestFit, hb, if_neg hr] at h
        exact Option.noConfusion h
    | some b0 =>
      by_cases hc : req ≤ r.size ∧ r.size ≤ b0.size
      · simp only [bestFit, hb, if_pos hc, Option.some.injEq] at h
        subst h
        exact ⟨List.mem_cons_self r rest, hc.1⟩
      · simp only [bestFit, hb, if_neg hc, Option.some.injEq] at h
        subst h
        obtain ⟨hmem, hfit⟩ := ih b0 hb
        exact ⟨List.mem_cons_of_mem r hmem, hfit⟩

/-- A best-fit result has the smallest size among the free nodes that
fit the request. -/
lemma bestFit_some_min (l : List Range) (req : Nat) (b : Range)
    (h : bestFit l req = some b) :
    ∀ r ∈ l, req ≤ r.size → b.size ≤ r.size := by
  induction l generalizing b with
  | nil => cases h
  | cons r rest ih =>
    intro x hx hxfit
    cases hb : bestFit rest req with
    | none =>
      by_cases hr : req ≤ r.size
      · simp only [bestFit, hb, if_pos hr, Option.some.injEq] at h
        subst h
        rcases List.mem_cons.mp hx with rfl | hx2
        · exact Nat.le_refl _
        · exact absurd hxfit
            (Nat.not_le.mpr (((bestFit_eq_none_iff rest req).mp hb) x hx2))
      · simp only [bestFit, hb, if_neg hr] at h
        exact Option.noConfusion h
    | some b0 =>
      by_cases hc : req ≤ r.size ∧ r.size ≤ b0.size
      · simp only [bestFit, hb, if_pos hc, Option.some.injEq] at h
        subst h
        rcases List.mem_cons.mp hx with rfl | hx2
        · exact Nat.le_refl _
        · exact Nat.le_trans hc.2 (ih b0 hb x hx2 hxfit)
      · simp only [bestFit, hb, if_neg hc, Option.some.injEq] at h
        subst h
        rcases List.mem_cons.mp hx with rfl | hx2
        · rcases Nat.lt_or_ge b0.size x.size with hlt | hge
          · exact Nat.le_of_lt hlt
          · exact absurd ⟨hxfit, hge⟩ hc
        · exact ih b0 hb x hx2 hxfit

/-! Helper lemmas about the split and merge primitives. -/

/-- Merging keeps the range of the parent. -/
lemma mergeMaybe_topRange (r : Range) (l rc : NTree) :
    (mergeMaybe r l rc).topRange = r := by
  unfold mergeMaybe
  split <;> rfl

/-- Merging keeps the maximal-merging invariant. -/
lemma mergeMaybe_maxMerged (r : Range) (l rc : NTree)
    (hl : maxMerged l = true) (hrc : maxMerged rc = true) :
    maxMerged (mergeMaybe r l rc) = true := by
  unfold mergeMaybe
  cases hc : (isFreeLeaf l && isFreeLeaf rc) with
  | true => simp [maxMerged]
  | false => simp [maxMerged, hl, hrc, hc]

/-- Merging keeps the partition invariant, given the partition
equations of the two children being merged. -/
lemma mergeMaybe_partitionOK (r : Range) (l rc : NTree)
    (heq1 : l.topRange.base + l.topRange.size = rc.topRange.base)
    (heq2 : l.topRange.size + rc.topRange.size = r.size)
    (hl : partitionOK l = true) (hrc : partitionOK rc = true) :
    partitionOK (mergeMaybe r l rc) = true := by
  unfold mergeMaybe
  split
  · rfl
  · simp [partitionOK, heq1, heq2, hl, hrc]

/-- Merging keeps every tracked range aligned. -/
lemma mergeMaybe_treeAligned (align : Nat) (r : Range) (l rc : NTree)
    (hr : rangeAligned align r = true)
    (hl : treeAligned align l = true) (hrc : treeAligned align rc = true) :
    treeAligned align (mergeMaybe r l rc) = true := by
  unfold mergeMaybe
  split
  · simpa [treeAligned] using hr
  · simp [treeAligned, hr, hl, hrc]

/-- Arithmetic helper: a difference of aligned quantities is aligned. -/
lemma sub_mod_zero (a b n : Nat) (ha : a % n = 0) (hb : b % n = 0) :
    (a - b) % n = 0 :=
  Nat.mod_eq_zero_of_dvd
    (Nat.dvd_sub' (Nat.dvd_of_mod_eq_zero ha) (Nat.dvd_of_mod_eq_zero hb))

/-- Arithmetic helper: a sum of aligned quantities is aligned. -/
lemma add_mod_zero (a b n : Nat) (ha : a % n = 0) (hb : b % n = 0) :
    (a + b) % n = 0 :=
  Nat.mod_eq_zero_of_dvd
    (Nat.dvd_add (Nat.dvd_of_mod_eq_zero ha) (Nat.dvd_of_mod_eq_zero hb))

/-- Rounding up to a positive alignment yields a multiple of it. -/
lemma alignUp_mod (align sz : Nat) (h : 0 < align) :
    alignUp align sz % align = 0 := by
  unfold alignUp
  rw [if_neg (Nat.pos_iff_ne_zero.mp h)]
  exact Nat.mul_mod_right align _

/-- Marking or splitting keeps the range at the top of the tree. -/
lemma markOrSplit_topRange (align req : Nat) (ps : Bool) (tg : Range)
    (t t2 : NTree) (hd : Range)
    (hm : markOrSplit align req ps tg t = some (t2, hd)) :
    t2.topRange = t.topRange := by
  induction t generalizing t2 hd with
  | leaf r used =>
    cases used with
    | true => simp [markOrSplit] at hm
    | false =>
      simp only [markOrSplit, Bool.false_eq_true, if_false] at hm
      split at hm
      · split at hm
        · obtain ⟨h1, h2⟩ := Prod.mk.injEq .. ▸ Option.some.inj hm
          subst h1
          rfl
        · obtain ⟨h1, h2⟩ := Prod.mk.injEq .. ▸ Option.some.inj hm
          subst h1
          rfl
      · exact Option.noConfusion hm
  | node r l rc ihl ihr =>
    cases hml : markOrSplit align req ps tg l with
    | some pl =>
      obtain ⟨l2, hh⟩ := pl
      simp only [markOrSplit, hml] at hm
      obtain ⟨h1, h2⟩ := Prod.mk.injEq .. ▸ Option.some.inj hm
      subst h1
      rfl
    | none =>
      cases hmr : markOrSplit align req ps tg rc with
      | some pr =>
        obtain ⟨rc2, hh⟩ := pr
        simp only [markOrSplit, hml, hmr] at hm
        obtain ⟨h1, h2⟩ := Prod.mk.injEq .. ▸ Option.some.inj hm
        subst h1
        rfl
      | none => simp [markOrSplit, hml, hmr] at hm

/-- The tree returned by a successful markOrSplit is never a free
leaf: its top either became used or became an inner node. -/
lemma markOrSplit_not_isFreeLeaf (align req : Nat) (ps : Bool) (tg : Range)
    (t t2 : NTree) (hd : Range)
    (hm : markOrSplit align req ps tg t = some (t2, hd)) :
    isFreeLeaf t2 = false := by
  induction t generalizing t2 hd with
  | leaf r used =>
    cases used with
    | true => simp [markOrSplit] at hm
    | false =>
      simp only [markOrSplit, Bool.false_eq_true, if_false] at hm
      split at hm
      · split at hm
        · obtain ⟨h1, h2⟩ := Prod.mk.injEq .. ▸ Option.some.inj hm
          subst h1
          rfl
        · obtain ⟨h1, h2⟩ := Prod.mk.injEq .. ▸ Option.some.inj hm
          subst h1
          rfl
      · exact Option.noConfusion hm
  | node r l rc ihl ihr =>
    cases hml : markOrSplit align req ps tg l with
    | some pl =>
      obtain ⟨l2, hh⟩ := pl
      simp only [markOrSplit, hml] at hm
      obtain ⟨h1, h2⟩ := Prod.mk.injEq .. ▸ Option.some.inj hm
      subst h1
      rfl
    | none =>
      cases hmr : markOrSplit align req ps tg rc with
      | some pr =>
        obtain ⟨rc2, hh⟩ := pr
        simp only [markOrSplit, hml, hmr] at hm
        obtain ⟨h1, h2⟩ := Prod.mk.injEq .. ▸ Option.some.inj hm
        subst h1
        rfl
      | none => simp [markOrSplit, hml, hmr] at hm

/-- Marking or splitting preserves maximal merging: a split leaves a
used left child next to the free remainder, never two free leaves. -/
lemma markOrSplit_maxMerged (align req : Nat) (ps : Bool) (tg : Range)
    (t t2 : NTree) (hd : Range) (hmm : maxMerged t = true)
    (hm : markOrSplit align req ps tg t = some (t2, hd)) :
    maxMerged t2 = true := by
  induction t generalizing t2 hd with
  | leaf r used =>
    cases used with
    | true => simp [markOrSplit] at hm
    | false =>
      simp only [markOrSplit, Bool.false_eq_true, if_false] at hm
      split at hm
      · split at hm
        · obtain ⟨h1, h2⟩ := Prod.mk.injEq .. ▸ Option.some.inj hm
          subst h1
          rfl
        · obtain ⟨h1, h2⟩ := Prod.mk.injEq .. ▸ Option.some.inj hm
          subst h1
          rfl
      · exact Option.noConfusion hm
  | node r l rc ihl ihr =>
    simp only [maxMerged, Bool.and_eq_true, Bool.not_eq_true'] at hmm
    cases hml : markOrSplit align req ps tg l with
    | some pl =>
      obtain ⟨l2, hh⟩ := pl
      simp only [markOrSplit, hml] at hm
      obtain ⟨h1, h2⟩ := Prod.mk.injEq .. ▸ Option.some.inj hm
      subst h1
      have hfl := markOrSplit_not_isFreeLeaf align req ps tg l l2 hh hml
      simp [maxMerged, ihl l2 hh hmm.1.1 hml, hmm.1.2, hfl]
    | none =>
      cases hmr : markOrSplit align req ps tg rc with
      | some pr =>
        obtain ⟨rc2, hh⟩ := pr
        simp only [markOrSplit, hml, hmr] at hm
        obtain ⟨h1, h2⟩ := Prod.mk.injEq .. ▸ Option.some.inj hm
        subst h1
        have hfr := markOrSplit_not_isFreeLeaf align req ps tg rc rc2 hh hmr
        simp [maxMerged, ihr rc2 hh hmm.1.2 hmr, hmm.1.1, hfr]
      | none => simp [markOrSplit, hml, hmr] at hm

/-- Marking or splitting preserves the partition invariant: the two
children created by a split cover the split node exactly. -/
lemma markOrSplit_partitionOK (align req : Nat) (ps : Bool) (tg : Range)
    (t t2 : NTree) (hd : Range) (hp : partitionOK t = true)
    (hm : markOrSplit align req ps tg t = some (t2, hd)) :
    partitionOK t2 = true := by
  induction t generalizing t2 hd with
  | leaf r used =>
    cases used with
    | true => simp [markOrSplit] at hm
    | false =>
      simp only [markOrSplit, Bool.false_eq_true, if_false] at hm
      split at hm
      · split at hm
        · rename_i hcond
          obtain ⟨h1, h2⟩ := Prod.mk.injEq .. ▸ Option.some.inj hm
          subst h1
          have hle : req ≤ r.size :=
            Nat.le_trans (Nat.le_add_right req align) hcond.2
          have hcan : req + (r.size - req) = r.size := by omega
          simp [partitionOK, NTree.topRange, hcan]
        · obtain ⟨h1, h2⟩ := Prod.mk.injEq .. ▸ Option.some.inj hm
          subst h1
          rfl
      · exact Option.noConfusion hm
  | node r l rc ihl ihr =>
    simp only [partitionOK, Bool.and_eq_true, beq_iff_eq] at hp
    cases hml : markOrSplit align req ps tg l with
    | some pl =>
      obtain ⟨l2, hh⟩ := pl
      simp only [markOrSplit, hml] at hm
      obtain ⟨h1, h2⟩ := Prod.mk.injEq .. ▸ Option.some.inj hm
      subst h1
      have htop := markOrSplit_topRange align req ps tg l l2 hh hml
      simp only [partitionOK, Bool.and_eq_true, beq_iff_eq, htop]
      exact ⟨⟨hp.1.1, hp.1.2⟩, ihl l2 hh hp.2.1 hml, hp.2.2⟩
    | none =>
      cases hmr : markOrSplit align req ps tg rc with
      | some pr =>
        obtain ⟨rc2, hh⟩ := pr
        simp only [markOrSplit, hml, hmr] at hm
        obtain ⟨h1, h2⟩ := Prod.mk.injEq .. ▸ Option.some.inj hm
        subst h1
        have htop := markOrSplit_topRange align req ps tg rc rc2 hh hmr
        simp only [partitionOK, Bool.and_eq_true, beq_iff_eq, htop]
        exact ⟨⟨hp.1.1, hp.1.2⟩, hp.2.1, ihr rc2 hh hp.2.2 hmr⟩
      | none => simp [markOrSplit, hml, hmr] at hm

/-- Marking or splitting an aligned tree with an aligned request keeps
every tracked range aligned. -/
lemma markOrSplit_treeAligned (align req : Nat) (ps : Bool) (tg : Range)
    (t t2 : NTree) (hd : Range) (ha : treeAligned align t = true)
    (hreq : req % align = 0)
    (hm : markOrSplit align req ps tg t = some (t2, hd)) :
    treeAligned align t2 = true := by
  induction t generalizing t2 hd with
  | leaf r used =>
    cases used with
    | true => simp [markOrSplit] at hm
    | false =>
      simp only [treeAligned, rangeAligned, Bool.and_eq_true, beq_iff_eq] at ha
      simp only [markOrSplit, Bool.false_eq_true, if_false] at hm
      split at hm
      · split at hm
        · obtain ⟨h1, h2⟩ := Prod.mk.injEq .. ▸ Option.some.inj hm
          subst h1
          simp only [treeAligned, rangeAligned, Bool.and_eq_true, beq_iff_eq]
          exact ⟨⟨ha.1, ha.2⟩, ⟨ha.1, hreq⟩,
            add_mod_zero _ _ _ ha.1 hreq, sub_mod_zero _ _ _ ha.2 hreq⟩
        · obtain ⟨h1, h2⟩ := Prod.mk.injEq .. ▸ Option.some.inj hm
          subst h1
          simp only [treeAligned, rangeAligned, Bool.and_eq_true, beq_iff_eq]
          exact ⟨ha.1, ha.2⟩
      · exact Option.noConfusion hm
  | node r l rc ihl ihr =>
    simp only [treeAligned, Bool.and_eq_true] at ha
    cases hml : markOrSplit align req ps tg l with
    | some pl =>
      obtain ⟨l2, hh⟩ := pl
      simp only [markOrSplit, hml] at hm
      obtain ⟨h1, h2⟩ := Prod.mk.injEq .. ▸ Option.some.inj hm
      subst h1
      simp [treeAligned, ha.1, ihl l2 hh ha.2.1 hml, ha.2.2]
    | none =>
      cases hmr : markOrSplit align req ps tg rc with
      | some pr =>
        obtain ⟨rc2, hh⟩ := pr
        simp only [markOrSplit, hml, hmr] at hm
        obtain ⟨h1, h2⟩ := Prod.mk.injEq .. ▸ Option.some.inj hm
        subst h1
        simp [treeAligned, ha.1, ha.2.1, ihr rc2 hh ha.2.2 hmr]
      | none => simp [markOrSplit, hml, hmr] at hm

/-- The range handed out by markOrSplit is the chosen node, or its
left part of exactly the aligned request size when it was split. -/
lemma markOrSplit_handed (align req : Nat) (ps : Bool) (tg : Range)
    (t t2 : NTree) (hd : Range)
    (hm : markOrSplit align req ps tg t = some (t2, hd)) :
    hd = tg ∨ hd = ⟨tg.base, req⟩ := by
  induction t generalizing t2 hd with
  | leaf r used =>
    cases used with
    | true => simp [markOrSplit] at hm
    | false =>
      simp only [markOrSplit, Bool.false_eq_true, if_false] at hm
      split at hm
      · rename_i hr
        split at hm
        · obtain ⟨h1, h2⟩ := Prod.mk.injEq .. ▸ Option.some.inj hm
          subst hr
          right
          exact h2.symm
        · obtain ⟨h1, h2⟩ := Prod.mk.injEq .. ▸ Option.some.inj hm
          subst hr
          left
          exact h2.symm
      · exact Option.noConfusion hm
  | node r l rc ihl ihr =>
    cases hml : markOrSplit align req ps tg l with
    | some pl =>
      obtain ⟨l2, hh⟩ := pl
      simp only [markOrSplit, hml] at hm
      obtain ⟨h1, h2⟩ := Prod.mk.injEq .. ▸ Option.some.inj hm
      subst h2
      exact ihl l2 hh hml
    | none =>
      cases hmr : markOrSplit align req ps tg rc with
      | some pr =>
        obtain ⟨rc2, hh⟩ := pr
        simp only [markOrSplit, hml, hmr] at hm
        obtain ⟨h1, h2⟩ := Prod.mk.injEq .. ▸ Option.some.inj hm
        subst h2
        exact ihr rc2 hh hmr
      | none => simp [markOrSplit, hml, hmr] at hm

/-- When the chosen range is a free leaf of the tree, markOrSplit
succeeds. -/
lemma markOrSplit_isSome (align req : Nat) (ps : Bool) (tg : Range)
    (t : NTree) (hmem : tg ∈ t.freeLeaves) :
    (markOrSplit align req ps tg t).isSome = true := by
  induction t with
  | leaf r used =>
    cases used with
    | true => simp [NTree.freeLeaves] at hmem
    | false =>
      simp only [NTree.freeLeaves, Bool.false_eq_true, if_false,
        List.mem_singleton] at hmem
      subst hmem
      simp only [markOrSplit, Bool.false_eq_true, if_false]
      rw [if_pos trivial]
      split <;> rfl
  | node r l rc ihl ihr =>
    simp only [NTree.freeLeaves, List.mem_append] at hmem
    cases hml : markOrSplit align req ps tg l with
    | some pl =>
      obtain ⟨l2, hh⟩ := pl
      simp [markOrSplit, hml]
    | none =>
      rcases hmem with hmem | hmem
      · rw [hml] at ihl
        simp at ihl
        exact absurd hmem ihl
      · cases hmr : markOrSplit align req ps tg rc with
        | some pr =>
          obtain ⟨rc2, hh⟩ := pr
          simp [markOrSplit, hml, hmr]
        | none =>
          rw [hmr] at ihr
          simp at ihr
          exact absurd hmem ihr

/-- Returning memory keeps the range at the top of the tree. -/
lemma returnMemoryTree_topRange (pm : Bool) (tg : Range) (t t2 : NTree)
    (hm : returnMemoryTree pm tg t = some t2) :
    t2.topRange = t.topRange := by
  induction t generalizing t2 with
  | leaf r used =>
    simp only [returnMemoryTree] at hm
    split at hm
    · have he := Option.some.inj hm
      subst he
      rfl
    · exact Option.noConfusion hm
  | node r l rc ihl ihr =>
    cases hml : returnMemoryTree pm tg l with
    | some l2 =>
      simp only [returnMemoryTree, hml] at hm
      have he := Option.some.inj hm
      subst he
      cases pm with
      | true =>
        rw [if_pos rfl]
        exact mergeMaybe_topRange r l2 rc
      | false => rfl
    | none =>
      cases hmr : returnMemoryTree pm tg rc with
      | some rc2 =>
        simp only [returnMemoryTree, hml, hmr] at hm
        have he := Option.some.inj hm
        subst he
        cases pm with
        | true =>
          rw [if_pos rfl]
          exact mergeMaybe_topRange r l rc2
        | false => rfl
      | none => simp [returnMemoryTree, hml, hmr] at hm

/-- Returning memory with merging permitted keeps the maximal-merging
invariant: whenever two sibling leaves become free they are coalesced
on the way up. -/
lemma returnMemoryTree_maxMerged (tg : Range) (t t2 : NTree)
    (hmm : maxMerged t = true)
    (hm : returnMemoryTree true tg t = some t2) :
    maxMerged t2 = true := by
  induction t generalizing t2 with
  | leaf r used =>
    simp only [returnMemoryTree] at hm
    split at hm
    · have he := Option.some.inj hm
      subst he
      rfl
    · exact Option.noConfusion hm
  | node r l rc ihl ihr =>
    simp only [maxMerged, Bool.and_eq_true] at hmm
    cases hml : returnMemoryTree true tg l with
    | some l2 =>
      simp only [returnMemoryTree, hml] at hm
      have he := Option.some.inj hm
      subst he
      simpa using mergeMaybe_maxMerged r l2 rc (ihl l2 hmm.1.1 hml) hmm.1.2
    | none =>
      cases hmr : returnMemoryTree true tg rc with
      | some rc2 =>
        simp only [returnMemoryTree, hml, hmr] at hm
        have he := Option.some.inj hm
        subst he
        simpa using mergeMaybe_maxMerged r l rc2 hmm.1.1 (ihr rc2 hmm.1.2 hmr)
      | none => simp [returnMemoryTree, hml, hmr] at hm

/-- Returning memory keeps the partition invariant. -/
lemma returnMemoryTree_partitionOK (pm : Bool) (tg : Range) (t t2 : NTree)
    (hp : partitionOK t = true)
    (hm : returnMemoryTree pm tg t = some t2) :
    partitionOK t2 = true := by
  induction t generalizing t2 with
  | leaf r used =>
    simp only [returnMemoryTree] at hm
    split at hm
    · have he := Option.some.inj hm
      subst he
      rfl
    · exact Option.noConfusion hm
  | node r l rc ihl ihr =>
    simp only [partitionOK, Bool.and_eq_true, beq_iff_eq] at hp
    cases hml : returnMemoryTree pm tg l with
    | some l2 =>
      simp only [returnMemoryTree, hml] at hm
      have he := Option.some.inj hm
      subst he
      have htop := returnMemoryTree_topRange pm tg l l2 hml
      cases pm with
      | true =>
        simp only [if_true]
        exact mergeMaybe_partitionOK r l2 rc (htop ▸ hp.1.1) (htop ▸ hp.1.2)
          (ihl l2 hp.2.1 hml) hp.2.2
      | false =>
        simp only [Bool.false_eq_true, if_false]
        simp only [partitionOK, Bool.and_eq_true, beq_iff_eq, htop]
        exact ⟨⟨hp.1.1, hp.1.2⟩, ihl l2 hp.2.1 hml, hp.2.2⟩
    | none =>
      cases hmr : returnMemoryTree pm tg rc with
      | some rc2 =>
        simp only [returnMemoryTree, hml, hmr] at hm
        have he := Option.some.inj hm
        subst he
        have htop := returnMemoryTree_topRange pm tg rc rc2 hmr
        cases pm with
        | true =>
          simp only [if_true]
          exact mergeMaybe_partitionOK r l rc2 (htop ▸ hp.1.1) (htop ▸ hp.1.2)
            hp.2.1 (ihr rc2 hp.2.2 hmr)
        | false =>
          simp only [Bool.false_eq_true, if_false]
          simp only [partitionOK, Bool.and_eq_true, beq_iff_eq, htop]
          exact ⟨⟨hp.1.1, hp.1.2⟩, hp.2.1, ihr rc2 hp.2.2 hmr⟩
      | none => simp [returnMemoryTree, hml, hmr] at hm

/-- Returning memory keeps every tracked range aligned. -/
lemma returnMemoryTree_treeAligned (align : Nat) (pm : Bool) (tg : Range)
    (t t2 : NTree) (ha : treeAligned align t = true)
    (hm : returnMemoryTree pm tg t = some t2) :
    treeAligned align t2 = true := by
  induction t generalizing t2 with
  | leaf r used =>
    simp only [returnMemoryTree] at hm
    split at hm
    · have he := Option.some.inj hm
      subst he
      exact ha
    · exact Option.noConfusion hm
  | node r l rc ihl ihr =>
    simp only [treeAligned, Bool.and_eq_true] at ha
    cases hml : returnMemoryTree pm tg l with
    | some l2 =>
      simp only [returnMemoryTree, hml] at hm
      have he := Option.some.inj hm
      subst he
      cases pm with
      | true =>
        simp only [if_true]
        exact mergeMaybe_treeAligned align r l2 rc ha.1
          (ihl l2 ha.2.1 hml) ha.2.2
      | false =>
        simp only [Bool.false_eq_true, if_false]
        simp [treeAligned, ha.1, ihl l2 ha.2.1 hml, ha.2.2]
    | none =>
      cases hmr : returnMemoryTree pm tg rc with
      | some rc2 =>
        simp only [returnMemoryTree, hml, hmr] at hm
        have he := Option.some.inj hm
        subst he
        cases pm with
        | true =>
          simp only [if_true]
          exact mergeMaybe_treeAligned align r l rc2 ha.1 ha.2.1
            (ihr rc2 ha.2.2 hmr)
        | false =>
          simp only [Bool.false_eq_true, if_false]
          simp [treeAligned, ha.1, ha.2.1, ihr rc2 ha.2.2 hmr]
      | none => simp [returnMemoryTree, hml, hmr] at hm

/-- A range that is on no used leaf cannot be returned: returnMemory
fails without touching the tree. -/
lemma returnMemoryTree_eq_none (pm : Bool) (tg : Range) (t : NTree)
    (h : tg ∉ t.usedLeaves) : returnMemoryTree pm tg t = none := by
  induction t with
  | leaf r used =>
    cases used with
    | true =>
      have hne : ¬(r = tg) := by
        intro e
        subst e
        exact h (by simp [NTree.usedLeaves])
      simp [returnMemoryTree, hne]
    | false => simp [returnMemoryTree]
  | node r l rc ihl ihr =>
    simp only [NTree.usedLeaves, List.mem_append] at h
    push_neg at h
    simp [returnMemoryTree, ihl h.1, ihr h.2]

/-- A tree with no used leaf is entirely free. -/
lemma allFree_of_usedLeaves_eq_nil (t : NTree) (h : t.usedLeaves = []) :
    allFree t = true := by
  induction t with
  | leaf r used =>
    cases used with
    | true => simp [NTree.usedLeaves] at h
    | false => rfl
  | node r l rc ihl ihr =>
    simp only [NTree.usedLeaves, List.append_eq_nil] at h
    simp [allFree, ihl h.1, ihr h.2]

/-- An entirely free, maximally merged tree is one free leaf: its
split children have all been coalesced back into the root. -/
lemma allFree_maxMerged_eq_leaf (t : NTree) (haf : allFree t = true)
    (hmm : maxMerged t = true) : t = NTree.leaf t.topRange false := by
  induction t with
  | leaf r used =>
    cases used with
    | true => simp [allFree] at haf
    | false => rfl
  | node r l rc ihl ihr =>
    simp only [allFree, Bool.and_eq_true] at haf
    simp only [maxMerged, Bool.and_eq_true] at hmm
    have hl := ihl haf.1 hmm.1.1
    have hr := ihr haf.2 hmm.1.2
    have hfl : isFreeLeaf l = true := by rw [hl]; rfl
    have hfr : isFreeLeaf rc = true := by rw [hr]; rfl
    simp [hfl, hfr] at hmm

/-! Lifting of the tree lemmas to the forest of roots. -/

/-- A tree property preserved by markOrSplit is preserved across the
forest. -/
lemma markOrSplitForest_all (align req : Nat) (ps : Bool) (tg : Range)
    (P : NTree → Bool)
    (hpres : ∀ t t2 hd, P t = true →
      markOrSplit align req ps tg t = some (t2, hd) → P t2 = true)
    (ts ts2 : List NTree) (hd : Range) (hall : ts.all P = true)
    (hm : markOrSplitForest align req ps tg ts = some (ts2, hd)) :
    ts2.all P = true := by
  induction ts generalizing ts2 with
  | nil => exact Option.noConfusion hm
  | cons t rest ih =>
    simp only [List.all_cons, Bool.and_eq_true] at hall
    cases hmt : markOrSplit align req ps tg t with
    | some pl =>
      obtain ⟨t2, hh⟩ := pl
      simp only [markOrSplitForest, hmt] at hm
      obtain ⟨h1, h2⟩ := Prod.mk.injEq .. ▸ Option.some.inj hm
      subst h1
      simp [List.all_cons, hpres t t2 hh hall.1 hmt, hall.2]
    | none =>
      cases hmf : markOrSplitForest align req ps tg rest with
      | some pr =>
        obtain ⟨rest2, hh⟩ := pr
        simp only [markOrSplitForest, hmt, hmf] at hm
        obtain ⟨h1, h2⟩ := Prod.mk.injEq .. ▸ Option.some.inj hm
        subst h1
        subst h2
        simp [List.all_cons, hall.1, ih rest2 hall.2 hmf]
      | none => simp [markOrSplitForest, hmt, hmf] at hm

/-- A tree property preserved by returnMemory is preserved across the
forest. -/
lemma returnMemoryForest_all (pm : Bool) (tg : Range) (P : NTree → Bool)
    (hpres : ∀ t t2, P t = true →
      returnMemoryTree pm tg t = some t2 → P t2 = true)
    (ts ts2 : List NTree) (hall : ts.all P = true)
    (hm : returnMemoryForest pm tg ts = some ts2) :
    ts2.all P = true := by
  induction ts generalizing ts2 with
  | nil => exact Option.noConfusion hm
  | cons t rest ih =>
    simp only [List.all_cons, Bool.and_eq_true] at hall
    cases hmt : returnMemoryTree pm tg t with
    | some t2 =>
      simp only [returnMemoryForest, hmt] at hm
      have he := Option.some.inj hm
      subst he
      simp [List.all_cons, hpres t t2 hall.1 hmt, hall.2]
    | none =>
      cases hmf : returnMemoryForest pm tg rest with
      | some rest2 =>
        simp only [returnMemoryForest, hmt, hmf] at hm
        have he := Option.some.inj hm
        subst he
        simp [List.all_cons, hall.1, ih rest2 hall.2 hmf]
      | none => simp [returnMemoryForest, hmt, hmf] at hm

/-- Marking or splitting keeps the list of root ranges. -/
lemma markOrSplitForest_map_topRange (align req : Nat) (ps : Bool)
    (tg : Range) (ts ts2 : List NTree) (hd : Range)
    (hm : markOrSplitForest align req ps tg ts = some (ts2, hd)) :
    ts2.map NTree.topRange = ts.map NTree.topRange := by
  induction ts generalizing ts2 with
  | nil => exact Option.noConfusion hm
  | cons t rest ih =>
    cases hmt : markOrSplit align req ps tg t with
    | some pl =>
      obtain ⟨t2, hh⟩ := pl
      simp only [markOrSplitForest, hmt] at hm
      obtain ⟨h1, h2⟩ := Prod.mk.injEq .. ▸ Option.some.inj hm
      subst h1
      simp [markOrSplit_topRange align req ps tg t t2 hh hmt]
    | none =>
      cases hmf : markOrSplitForest align req ps tg rest with
      | some pr =>
        obtain ⟨rest2, hh⟩ := pr
        simp only [markOrSplitForest, hmt, hmf] at hm
        obtain ⟨h1, h2⟩ := Prod.mk.injEq .. ▸ Option.some.inj hm
        subst h1
        subst h2
        simp [ih rest2 hmf]
      | none => simp [markOrSplitForest, hmt, hmf] at hm

/-- Returning memory keeps the list of root ranges. -/
lemma returnMemoryForest_map_topRange (pm : Bool) (tg : Range)
    (ts ts2 : List NTree)
    (hm : returnMemoryForest pm tg ts = some ts2) :
    ts2.map NTree.topRange = ts.map NTree.topRange := by
  induction ts generalizing ts2 with
  | nil => exact Option.noConfusion hm
  | cons t rest ih =>
    cases hmt : returnMemoryTree pm tg t with
    | some t2 =>
      simp only [returnMemoryForest, hmt] at hm
      have he := Option.some.inj hm
      subst he
      simp [returnMemoryTree_topRange pm tg t t2 hmt]
    | none =>
      cases hmf : returnMemoryForest pm tg rest with
      | some rest2 =>
        simp only [returnMemoryForest, hmt, hmf] at hm
        have he := Option.some.inj hm
        subst he
        simp [ih rest2 hmf]
      | none => simp [returnMemoryForest, hmt, hmf] at hm

/-- A range on no used leaf of any root cannot be returned. -/
lemma returnMemoryForest_eq_none (pm : Bool) (tg : Range) (ts : List NTree)
    (h : ∀ t ∈ ts, tg ∉ t.usedLeaves) :
    returnMemoryForest pm tg ts = none := by
  induction ts with
  | nil => rfl
  | cons t rest ih =>
    have ht := returnMemoryTree_eq_none pm tg t (h t (List.mem_cons_self t rest))
    have hr := ih (fun x hx => h x (List.mem_cons_of_mem t hx))
    simp [returnMemoryForest, ht, hr]

/-- When the chosen range is a free leaf of some root, the forest
rewrite succeeds. -/
lemma markOrSplitForest_isSome (align req : Nat) (ps : Bool) (tg : Range)
    (ts : List NTree) (hmem : tg ∈ ts.flatMap NTree.freeLeaves) :
    (markOrSplitForest align req ps tg ts).isSome = true := by
  induction ts with
  | nil => simp at hmem
  | cons t rest ih =>
    simp only [List.flatMap_cons, List.mem_append] at hmem
    cases hmt : markOrSplit align req ps tg t with
    | some pl =>
      obtain ⟨t2, hh⟩ := pl
      simp [markOrSplitForest, hmt]
    | none =>
      rcases hmem with hmem | hmem
      · have := markOrSplit_isSome align req ps tg t hmem
        rw [hmt] at this
        simp at this
      · have := ih hmem
        cases hmf : markOrSplitForest align req ps tg rest with
        | some pr =>
          obtain ⟨rest2, hh⟩ := pr
          simp [markOrSplitForest, hmt, hmf]
        | none =>
          rw [hmf] at this
          simp at this

/-- The handed-out range across the forest is the chosen node or its
left split part. -/
lemma markOrSplitForest_handed (align req : Nat) (ps : Bool) (tg : Range)
    (ts ts2 : List NTree) (hd : Range)
    (hm : markOrSplitForest align req ps tg ts = some (ts2, hd)) :
    hd = tg ∨ hd = ⟨tg.base, req⟩ := by
  induction ts generalizing ts2 with
  | nil => exact Option.noConfusion hm
  | cons t rest ih =>
    cases hmt : markOrSplit align req ps tg t with
    | some pl =>
      obtain ⟨t2, hh⟩ := pl
      simp only [markOrSplitForest, hmt] at hm
      obtain ⟨h1, h2⟩ := Prod.mk.injEq .. ▸ Option.some.inj hm
      subst h2
      exact markOrSplit_handed align req ps tg t t2 hh hmt
    | none =>
      cases hmf : markOrSplitForest align req ps tg rest with
      | some pr =>
        obtain ⟨rest2, hh⟩ := pr
        simp only [markOrSplitForest, hmt, hmf] at hm
        obtain ⟨h1, h2⟩ := Prod.mk.injEq .. ▸ Option.some.inj hm
        subst h2
        exact ih rest2 hmf
      | none => simp [markOrSplitForest, hmt, hmf] at hm

/-- Free-leaf ranges of an aligned tree are aligned. -/
lemma freeLeaves_aligned (align : Nat) (t : NTree)
    (ha : treeAligned align t = true) :
    ∀ r ∈ t.freeLeaves, rangeAligned align r = true := by
  induction t with
  | leaf r used =>
    cases used with
    | true => simp [NTree.freeLeaves]
    | false =>
      simp only [NTree.freeLeaves, Bool.false_eq_true, if_false,
        List.mem_singleton]
      intro x hx
      subst hx
      exact ha
  | node r l rc ihl ihr =>
    simp only [treeAligned, Bool.and_eq_true] at ha
    simp only [NTree.freeLeaves, List.mem_append]
    intro x hx
    rcases hx with hx | hx
    · exact ihl ha.2.1 x hx
    · exact ihr ha.2.2 x hx

/-! State-level invariant preservation. -/

/-- getFromFreeList preserves a root property that markOrSplit
preserves. -/
lemma getFromFreeList_roots_all (align req : Nat) (ps : Bool)
    (P : NTree → Bool)
    (hpres : ∀ tg t t2 hd, P t = true →
      markOrSplit align req ps tg t = some (t2, hd) → P t2 = true)
    (s : AllocState) (hall : s.roots.all P = true) :
    ((getFromFreeList align s req ps).1).roots.all P = true := by
  cases hb : bestFit (freeListOf s) req with
  | none => simpa [getFromFreeList, hb] using hall
  | some tg =>
    cases hms : markOrSplitForest align req ps tg s.roots with
    | some pr =>
      obtain ⟨roots2, hd⟩ := pr
      simp only [getFromFreeList, hb, hms]
      exact markOrSplitForest_all align req ps tg P (hpres tg)
        s.roots roots2 hd hall hms
    | none => simpa [getFromFreeList, hb, hms] using hall

/-- getFromFreeList changes only the forest of roots: the source
watermark, the grant record and the totals are untouched. -/
lemma getFromFreeList_fields (align req : Nat) (ps : Bool)
    (s : AllocState) :
    ((getFromFreeList align s req ps).1).nextBase = s.nextBase ∧
    ((getFromFreeList align s req ps).1).granted = s.granted ∧
    ((getFromFreeList align s req ps).1).mTotalSize = s.mTotalSize := by
  cases hb : bestFit (freeListOf s) req with
  | none => simp [getFromFreeList, hb]
  | some tg =>
    cases hms : markOrSplitForest align req ps tg s.roots with
    | some pr =>
      obtain ⟨roots2, hd⟩ := pr
      simp [getFromFreeList, hb, hms]
    | none => simp [getFromFreeList, hb, hms]

/-- getFromFreeList keeps the list of root ranges. -/
lemma getFromFreeList_map_topRange (align req : Nat) (ps : Bool)
    (s : AllocState) :
    ((getFromFreeList align s req ps).1).roots.map NTree.topRange =
      s.roots.map NTree.topRange := by
  cases hb : bestFit (freeListOf s) req with
  | none => simp [getFromFreeList, hb]
  | some tg =>
    cases hms : markOrSplitForest align req ps tg s.roots with
    | some pr =>
      obtain ⟨roots2, hd⟩ := pr
      simp only [getFromFreeList, hb, hms]
      exact markOrSplitForest_map_topRange align req ps tg s.roots roots2 hd hms
    | none => simp [getFromFreeList, hb, hms]

/-- returnMemoryS preserves a root property that returnMemory
preserves. -/
lemma returnMemoryS_roots_all (pm : Bool) (P : NTree → Bool)
    (hpres : ∀ tg t t2, P t = true →
      returnMemoryTree pm tg t = some t2 → P t2 = true)
    (s : AllocState) (p : Range) (hall : s.roots.all P = true) :
    (returnMemoryS pm s p).roots.all P = true := by
  cases hms : returnMemoryForest pm p s.roots with
  | some roots2 =>
    simp only [returnMemoryS, hms]
    exact returnMemoryForest_all pm p P (hpres p) s.roots roots2 hall hms
  | none => simpa [returnMemoryS, hms] using hall

/-- free preserves a root property that merging returnMemory
preserves. -/
lemma free_roots_all (P : NTree → Bool)
    (hpres : ∀ tg t t2, P t = true →
      returnMemoryTree true tg t = some t2 → P t2 = true)
    (s : AllocState) (p : Range) (hall : s.roots.all P = true) :
    ((free s p).1).roots.all P = true := by
  cases hms : returnMemoryForest true p s.roots with
  | some roots2 =>
    simp only [free, hms]
    exact returnMemoryForest_all true p P (hpres p) s.roots roots2 hall hms
  | none => simpa [free, hms] using hall

/-- alloc preserves a root property that markOrSplit preserves and
that holds of the used fresh root it may create. -/
lemma alloc_roots_all (align size : Nat) (sep : Bool) (P : NTree → Bool)
    (hpres : ∀ tg t t2 hd, P t = true →
      markOrSplit align (alignUp align size) true tg t = some (t2, hd) →
      P t2 = true)
    (s : AllocState)
    (hleaf : P (NTree.leaf ⟨s.nextBase, alignUp align size⟩ true) = true)
    (hall : s.roots.all P = true) :
    ((alloc align s size sep).1).roots.all P = true := by
  cases sep with
  | true => simp [alloc, freshRoot, List.all_append, hall, hleaf]
  | false =>
    have hpre := getFromFreeList_roots_all align (alignUp align size) true
      P hpres s hall
    cases hgf : getFromFreeList align s (alignUp align size) true with
    | mk s2 ores =>
      cases ores with
      | some hdr =>
        simp only [alloc, Bool.false_eq_true, if_false, hgf]
        rw [hgf] at hpre
        exact hpre
      | none => simp [alloc, hgf, freshRoot, List.all_append, hall, hleaf]

/-- One public call preserves a root property preserved by both
primitives, provided it holds of any used fresh root. -/
lemma step_roots_all (align : Nat) (P : NTree → Bool)
    (hpresM : ∀ req ps tg t t2 hd, P t = true →
      markOrSplit align req ps tg t = some (t2, hd) → P t2 = true)
    (hpresR : ∀ tg t t2, P t = true →
      returnMemoryTree true tg t = some t2 → P t2 = true)
    (hleaf : ∀ r, P (NTree.leaf r true) = true)
    (s : AllocState) (op : Op) (hall : s.roots.all P = true) :
    (step align s op).roots.all P = true := by
  cases op with
  | alloc size sep =>
    exact alloc_roots_all align size sep P
      (hpresM (alignUp align size) true) s (hleaf _) hall
  | free p => exact free_roots_all P hpresR s p hall

/-- States reachable from the empty pool satisfy any property
preserved by every public call. -/
lemma run_invariant (align : Nat) (P : AllocState → Prop)
    (hinit : P initState)
    (hstep : ∀ s op, P s → P (step align s op)) (ops : List Op) :
    P (run align ops) := by
  suffices hgen : ∀ (l : List Op) (s : AllocState),
      P s → P (l.foldl (step align) s) from hgen ops initState hinit
  intro l
  induction l with
  | nil => exact fun s hs => hs
  | cons o rest ih => exact fun s hs => ih (step align s o) (hstep s o hs)

/-- Every reachable state is maximally merged. -/
lemma run_all_maxMerged (align : Nat) (ops : List Op) :
    (run align ops).roots.all maxMerged = true := by
  refine run_invariant align (fun s => s.roots.all maxMerged = true) rfl
    (fun s op h => ?_) ops
  exact step_roots_all align maxMerged
    (fun req ps tg t t2 hd hp hm =>
      markOrSplit_maxMerged align req ps tg t t2 hd hp hm)
    (fun tg t t2 hp hm => returnMemoryTree_maxMerged tg t t2 hp hm)
    (fun r => rfl) s op h

/-- Every reachable state satisfies the partition invariant. -/
lemma run_all_partitionOK (align : Nat) (ops : List Op) :
    (run align ops).roots.all partitionOK = true := by
  refine run_invariant align (fun s => s.roots.all partitionOK = true) rfl
    (fun s op h => ?_) ops
  exact step_roots_all align partitionOK
    (fun req ps tg t t2 hd hp hm =>
      markOrSplit_partitionOK align req ps tg t t2 hd hp hm)
    (fun tg t t2 hp hm => returnMemoryTree_partitionOK true tg t t2 hp hm)
    (fun r => rfl) s op h

/-- Every reachable state tracks the ranges granted by the source as
its root ranges, in order. -/
lemma run_granted (align : Nat) (ops : List Op) :
    (run align ops).roots.map NTree.topRange = (run align ops).granted := by
  refine run_invariant align
    (fun s => s.roots.map NTree.topRange = s.granted) rfl
    (fun s op h => ?_) ops
  cases op with
  | alloc size sep =>
    cases sep with
    | true => simp [step, alloc, freshRoot, NTree.topRange, h]
    | false =>
      cases hgf : getFromFreeList align s (alignUp align size) true with
      | mk s2 ores =>
        cases ores with
        | some hdr =>
          have hmap := getFromFreeList_map_topRange align
            (alignUp align size) true s
          have hfields := getFromFreeList_fields align
            (alignUp align size) true s
          rw [hgf] at hmap hfields
          simp only [step, alloc, Bool.false_eq_true, if_false, hgf]
          rw [hmap, hfields.2.1]
          exact h
        | none => simp [step, alloc, hgf, freshRoot, NTree.topRange, h]
  | free p =>
    cases hms : returnMemoryForest true p s.roots with
    | some roots2 =>
      have hmap := returnMemoryForest_map_topRange true p s.roots roots2 hms
      simp only [step, free, hms]
      rw [hmap]
      exact h
    | none => simpa [step, free, hms] using h

/-- Every reachable state keeps all tracked ranges and the source
watermark aligned. -/
lemma run_aligned (align : Nat) (hpos : 0 < align) (ops : List Op) :
    (run align ops).roots.all (treeAligned align) = true ∧
      (run align ops).nextBase % align = 0 := by
  refine run_invariant align
    (fun s => s.roots.all (treeAligned align) = true ∧
      s.nextBase % align = 0)
    ⟨rfl, Nat.zero_mod align⟩ (fun s op hP => ?_) ops
  obtain ⟨hall, hnb⟩ := hP
  cases op with
  | alloc size sep =>
    have hreq : alignUp align size % align = 0 := alignUp_mod align size hpos
    have hleaf : treeAligned align
        (NTree.leaf ⟨s.nextBase, alignUp align size⟩ true) = true := by
      simp [treeAligned, rangeAligned, hnb, hreq]
    constructor
    · exact alloc_roots_all align size sep (treeAligned align)
        (fun tg t t2 hd hp hm =>
          markOrSplit_treeAligned align (alignUp align size) true tg
            t t2 hd hp hreq hm)
        s hleaf hall
    · cases sep with
      | true =>
        simp only [step, alloc, freshRoot, if_true]
        exact add_mod_zero _ _ _ hnb hreq
      | false =>
        cases hgf : getFromFreeList align s (alignUp align size) true with
        | mk s2 ores =>
          cases ores with
          | some hdr =>
            have hfields := getFromFreeList_fields align
              (alignUp align size) true s
            rw [hgf] at hfields
            simp only [step, alloc, Bool.false_eq_true, if_false, hgf]
            rw [hfields.1]
            exact hnb
          | none =>
            simp only [step, alloc, Bool.false_eq_true, if_false, hgf,
              freshRoot]
            exact add_mod_zero _ _ _ hnb hreq
  | free p =>
    constructor
    · exact free_roots_all (treeAligned align)
        (fun tg t t2 hp hm =>
          returnMemoryTree_treeAligned align true tg t t2 hp hm)
        s p hall
    · cases hms : returnMemoryForest true p s.roots with
      | some roots2 => simpa [step, free, hms] using hnb
      | none => simpa [step, free, hms] using hnb

/-- The range handed out by a successful free-list lookup over an
aligned pool is aligned. -/
lemma getFromFreeList_handed_aligned (align req : Nat) (ps : Bool)
    (s s2 : AllocState) (hd : Range)
    (hall : s.roots.all (treeAligned align) = true)
    (hreq : req % align = 0)
    (hgf : getFromFreeList align s req ps = (s2, some hd)) :
    rangeAligned align hd = true := by
  cases hb : bestFit (freeListOf s) req with
  | none => simp [getFromFreeList, hb] at hgf
  | some tg =>
    have htg : rangeAligned align tg = true := by
      obtain ⟨hmem, -⟩ := bestFit_some_mem (freeListOf s) req tg hb
      obtain ⟨t, ht, htm⟩ := List.mem_flatMap.mp hmem
      exact freeLeaves_aligned align t (List.all_eq_true.mp hall t ht) tg htm
    cases hms : markOrSplitForest align req ps tg s.roots with
    | some pr =>
      obtain ⟨roots2, hd2⟩ := pr
      simp only [getFromFreeList, hb, hms, Prod.mk.injEq,
        Option.some.injEq] at hgf
      obtain ⟨-, h2⟩ := hgf
      subst h2
      rcases markOrSplitForest_handed align req ps tg s.roots roots2 hd2 hms
        with rfl | rfl
      · exact htg
      · simp only [rangeAligned, Bool.and_eq_true, beq_iff_eq] at htg ⊢
        exact ⟨htg.1, hreq⟩
    | none => simp [getFromFreeList, hb, hms] at hgf

end BufferAllocator

/-! Theorems settling the claims, with their witnesses. -/

/-- C9: the default hybrid threshold used by onRequireBufferHybrid and
onFreeBufferHybrid equals 4 MiB, and a request at or above this size
is routed to the source (OS) directly instead of the pool. -/
theorem hybrid_threshold_is_4MiB :
    MNN_HYBRID_DYNAMIC_THRESHOLD = 4 * 1024 * 1024 ∧
      ∀ size : Nat, MNN_HYBRID_DYNAMIC_THRESHOLD ≤ size →
        hybridRoute size MNN_HYBRID_DYNAMIC_THRESHOLD = HybridSource.os := by
  refine ⟨by decide, fun size h => ?_⟩
  simp only [hybridRoute, if_neg (Nat.not_lt.mpr h)]

/-- Witness for C9 at a concrete request of exactly 4 MiB. -/
theorem hybrid_threshold_is_4MiB_witness :
    hybridRoute (4 * 1024 * 1024) MNN_HYBRID_DYNAMIC_THRESHOLD = HybridSource.os :=
  hybrid_threshold_is_4MiB.2 (4 * 1024 * 1024) (by decide)

/-- C10: OpenCLBackend's OS/hybrid buffer entry points return true
unconditionally for every tensor and every threshold value, with no
state change. -/
theorem opencl_buffer_entry_points_trivial :
    ∀ (st : OpenCL.OpenCLBackendState) (t : HTensor) (thres : Nat),
      OpenCL.OpenCLBackend.onRequireBufferFromOS st t = (st, true) ∧
      OpenCL.OpenCLBackend.onFreeBufferToOS st t = (st, true) ∧
      OpenCL.OpenCLBackend.onRequireBufferHybrid st t thres = (st, true) ∧
      OpenCL.OpenCLBackend.onFreeBufferHybrid st t thres = (st, true) :=
  fun _ _ _ => ⟨rfl, rfl, rfl, rfl⟩

/-- Counterexample to C6 as stated: the OpenCLBackend override of
adaptTensorToNewAddress does not return success; at a concrete state
and tensor list it returns false and publishes nothing. -/
theorem opencl_adaptTensorToNewAddress_returns_false :
    OpenCL.OpenCLBackend.adaptTensorToNewAddress ⟨512⟩ [⟨"X", 0, 0⟩] =
      (⟨512⟩, false) :=
  rfl

/-- C5: when re-packing the live tensors would exceed the new budget,
moveTensor2bottom fails and the heuristic state, arena, and every
tensor binding are left exactly as before the call. -/
theorem moveTensor2bottom_budget_exceeded_unchanged
    (st : BufferAllocator.HeurState) (ts : List HTensor) (bgt : Nat)
    (h : bgt < (ts.map (fun t => BufferAllocator.allocatedSizeOf st t.id)).sum) :
    BufferAllocator.moveTensor2bottom st ts bgt = (st, none) := by
  have hperm := List.perm_insertionSort (fun a b : HTensor => a.offset ≤ b.offset) ts
  have hsum : ((ts.insertionSort (fun a b => a.offset ≤ b.offset)).map
      (fun t => BufferAllocator.allocatedSizeOf st t.id)).sum =
      (ts.map (fun t => BufferAllocator.allocatedSizeOf st t.id)).sum :=
    (hperm.map _).sum_eq
  have hp := BufferAllocator.packOffsets_none_of_exceeds
    (BufferAllocator.allocatedSizeOf st) bgt
    (ts.insertionSort (fun a b => a.offset ≤ b.offset)) 0 (Nat.zero_le _)
    (by rw [hsum]; omega)
  simp [BufferAllocator.moveTensor2bottom, hp]

/-- Witness for C5: a 1024-byte tensor cannot be re-packed into a
512-byte budget; the call fails with the state unchanged. -/
theorem moveTensor2bottom_budget_exceeded_unchanged_witness :
    512 < ([⟨"X", 0, 0⟩].map (fun t : MNN.HTensor =>
        BufferAllocator.allocatedSizeOf
          ⟨[("X", 0)], [("X", 1024)], 0, 4096, false, 0, []⟩ t.id)).sum ∧
    BufferAllocator.moveTensor2bottom
        ⟨[("X", 0)], [("X", 1024)], 0, 4096, false, 0, []⟩ [⟨"X", 0, 0⟩] 512 =
      (⟨[("X", 0)], [("X", 1024)], 0, 4096, false, 0, []⟩, none) :=
  ⟨by decide,
    moveTensor2bottom_budget_exceeded_unchanged
      ⟨[("X", 0)], [("X", 1024)], 0, 4096, false, 0, []⟩ [⟨"X", 0, 0⟩] 512
      (by decide)⟩

/-- C6 (amended): after a successful moveTensor2bottom, the
BufferAllocator-level adaptTensorToNewAddress publishes the new
(base, offset) bindings onto the re-packed tensors (pairwise distinct
identifiers), clears mDisableHeuristicWhileAdapting and returns
success; the OpenCLBackend override instead returns false. -/
theorem adaptTensorToNewAddress_publishes
    (st : BufferAllocator.HeurState) (ts : List HTensor) (bgt : Nat)
    (st2 : BufferAllocator.HeurState) (packed : List HTensor)
    (hmv : BufferAllocator.moveTensor2bottom st ts bgt = (st2, some packed))
    (hnd : (packed.map HTensor.id).Nodup) :
    BufferAllocator.adaptTensorToNewAddress st2 packed =
      ({ st2 with mDisableHeuristicWhileAdapting := false },
        packed.map (fun t => { t with base := st2.mHeuristicPtr }), true) := by
  obtain ⟨htrs, -, -⟩ :=
    BufferAllocator.moveTensor2bottom_some_fields st ts bgt st2 packed hmv
  simp only [BufferAllocator.adaptTensorToNewAddress, Prod.mk.injEq, and_true,
    true_and]
  refine List.map_congr_left fun t ht => ?_
  rw [htrs, BufferAllocator.find_mem_of_nodup_ids packed t hnd ht]

/-- Witness for C6 at a concrete shrink of one 512-byte tensor into a
1024-byte budget. -/
theorem adaptTensorToNewAddress_publishes_witness :
    BufferAllocator.moveTensor2bottom
        ⟨[("X", 0)], [("X", 512)], 4096, 4096, false, 0, []⟩ [⟨"X", 7, 9⟩] 1024 =
      (⟨[("X", 0)], [("X", 512)], 4096, 4096, true, 512, [⟨"X", 7, 0⟩]⟩,
        some [⟨"X", 7, 0⟩]) ∧
    ([⟨"X", 7, 0⟩].map HTensor.id).Nodup ∧
    BufferAllocator.adaptTensorToNewAddress
        ⟨[("X", 0)], [("X", 512)], 4096, 4096, true, 512, [⟨"X", 7, 0⟩]⟩
        [⟨"X", 7, 0⟩] =
      (⟨[("X", 0)], [("X", 512)], 4096, 4096, false, 512, [⟨"X", 7, 0⟩]⟩,
        [⟨"X", 4096, 0⟩], true) :=
  ⟨by decide, by decide,
    adaptTensorToNewAddress_publishes
      ⟨[("X", 0)], [("X", 512)], 4096, 4096, false, 0, []⟩ [⟨"X", 7, 9⟩] 1024
      ⟨[("X", 0)], [("X", 512)], 4096, 4096, true, 512, [⟨"X", 7, 0⟩]⟩
      [⟨"X", 7, 0⟩] (by decide) (by decide)⟩

/-- C7: for an identifier in the loaded plan, allocHeuristically
returns the arena base plus the planned offset, returns the same
base+offset on a repeated call with no shrink in between, and fails
exactly when the identifier is not in the plan. -/
theorem allocHeuristically_plan_fidelity (st : BufferAllocator.HeurState)
    (id : String) (size size2 : Nat)
    (hd : st.mDisableHeuristicWhileAdapting = false) :
    (∀ off, st.mHeuristicStrategy.lookup id = some off →
      (BufferAllocator.allocHeuristically st id size).2 =
          some ⟨st.mHeuristicPtr + off, size⟩ ∧
        (BufferAllocator.allocHeuristically
            (BufferAllocator.allocHeuristically st id size).1 id size2).2 =
          some ⟨st.mHeuristicPtr + off, size2⟩) ∧
    (st.mHeuristicStrategy.lookup id = none →
      (BufferAllocator.allocHeuristically st id size).2 = none) := by
  constructor
  · intro off hoff
    constructor
    · simp [BufferAllocator.allocHeuristically, hd, hoff]
    · simp [BufferAllocator.allocHeuristically, hd, hoff]
  · intro hnone
    simp [BufferAllocator.allocHeuristically, hd, hnone]

namespace BufferAllocator

/-- C1: for every sequence of alloc and free calls after which no
range is outstanding (the used list is empty), the free list is
exactly the set of ranges granted by the source, and every root has
merged back into one free leaf: all split children were coalesced. -/
theorem alloc_free_round_trip (align : Nat) (ops : List Op)
    (h : usedListOf (run align ops) = []) :
    freeListOf (run align ops) = (run align ops).granted ∧
    ∀ t ∈ (run align ops).roots, t = NTree.leaf t.topRange false := by
  have hmm := run_all_maxMerged align ops
  have hgr := run_granted align ops
  simp only [usedListOf] at h
  have hused := List.flatMap_eq_nil_iff.mp h
  have hleaf : ∀ t ∈ (run align ops).roots,
      t = NTree.leaf t.topRange false := by
    intro t ht
    exact allFree_maxMerged_eq_leaf t
      (allFree_of_usedLeaves_eq_nil t (hused t ht))
      (List.all_eq_true.mp hmm t ht)
  refine ⟨?_, hleaf⟩
  have hflat : ∀ ts : List NTree,
      (∀ t ∈ ts, t = NTree.leaf t.topRange false) →
      ts.flatMap NTree.freeLeaves = ts.map NTree.topRange := by
    intro ts
    induction ts with
    | nil => intro hts; rfl
    | cons t rest ih =>
      intro hts
      have h1 := hts t (List.mem_cons_self t rest)
      have hf : t.freeLeaves = [t.topRange] := by
        rw [h1]
        simp [NTree.freeLeaves, NTree.topRange]
      rw [List.flatMap_cons, List.map_cons, hf,
        ih (fun x hx => hts x (List.mem_cons_of_mem t hx))]
      rfl
  exact (hflat (run align ops).roots hleaf).trans hgr

/-- Witness for C1: one aligned allocation followed by its free
leaves a free list holding exactly the granted root, merged. -/
theorem alloc_free_round_trip_witness :
    usedListOf (run 4 [Op.alloc 6 false, Op.free ⟨0, 8⟩]) = [] ∧
    (freeListOf (run 4 [Op.alloc 6 false, Op.free ⟨0, 8⟩]) =
      (run 4 [Op.alloc 6 false, Op.free ⟨0, 8⟩]).granted ∧
    ∀ t ∈ (run 4 [Op.alloc 6 false, Op.free ⟨0, 8⟩]).roots,
      t = NTree.leaf t.topRange false) :=
  ⟨by decide, alloc_free_round_trip 4 [Op.alloc 6 false, Op.free ⟨0, 8⟩]
    (by decide)⟩

/-- C2: in every reachable state the children of every split node
partition the parent exactly (left.base + left.size = right.base and
left.size + right.size = parent.size), and the invariant is preserved
by every alloc or free step and by the getFromFreeList and
returnMemory primitives on any state satisfying it. -/
theorem partition_invariant (align : Nat) :
    (∀ ops : List Op, (run align ops).roots.all partitionOK = true) ∧
    (∀ (s : AllocState) (op : Op), s.roots.all partitionOK = true →
      (step align s op).roots.all partitionOK = true) ∧
    (∀ (s : AllocState) (req : Nat) (ps : Bool),
      s.roots.all partitionOK = true →
      ((getFromFreeList align s req ps).1).roots.all partitionOK = true) ∧
    (∀ (s : AllocState) (p : Range) (pm : Bool),
      s.roots.all partitionOK = true →
      (returnMemoryS pm s p).roots.all partitionOK = true) := by
  refine ⟨run_all_partitionOK align, ?_, ?_, ?_⟩
  · intro s op h
    exact step_roots_all align partitionOK
      (fun req ps tg t t2 hd hp hm =>
        markOrSplit_partitionOK align req ps tg t t2 hd hp hm)
      (fun tg t t2 hp hm => returnMemoryTree_partitionOK true tg t t2 hp hm)
      (fun r => rfl) s op h
  · intro s req ps h
    exact getFromFreeList_roots_all align req ps partitionOK
      (fun tg t t2 hd hp hm =>
        markOrSplit_partitionOK align req ps tg t t2 hd hp hm) s h
  · intro s p pm h
    exact returnMemoryS_roots_all pm partitionOK
      (fun tg t t2 hp hm => returnMemoryTree_partitionOK pm tg t t2 hp hm)
      s p h

/-- Witness for C2 on a run that splits a recycled 200-byte root and
on concrete states for the step and primitive clauses. -/
theorem partition_invariant_witness :
    (run 4 [Op.alloc 200 false, Op.free ⟨0, 200⟩,
      Op.alloc 6 false]).roots.all partitionOK = true ∧
    (step 4 (run 4 [Op.alloc 6 false]) (Op.free ⟨0, 8⟩)).roots.all
      partitionOK = true ∧
    ((getFromFreeList 4 (run 4 [Op.alloc 200 false, Op.free ⟨0, 200⟩]) 8
      true).1).roots.all partitionOK = true ∧
    (returnMemoryS true (run 4 [Op.alloc 6 false]) ⟨0, 8⟩).roots.all
      partitionOK = true :=
  ⟨(partition_invariant 4).1 [Op.alloc 200 false, Op.free ⟨0, 200⟩,
      Op.alloc 6 false],
    (partition_invariant 4).2.1 (run 4 [Op.alloc 6 false]) (Op.free ⟨0, 8⟩)
      (by decide),
    (partition_invariant 4).2.2.1
      (run 4 [Op.alloc 200 false, Op.free ⟨0, 200⟩]) 8 true (by decide),
    (partition_invariant 4).2.2.2 (run 4 [Op.alloc 6 false]) ⟨0, 8⟩ true
      (by decide)⟩

/-- C3: getFromFreeList is a best fit over the free list: when no free
node is large enough it fails leaving the state unchanged, and
otherwise the chosen node is a free node of smallest sufficient size
and the handed-out range starts at its base. -/
theorem getFromFreeList_best_fit (align : Nat) (s : AllocState) (req : Nat)
    (ps : Bool) :
    (bestFit (freeListOf s) req = none →
      (∀ r ∈ freeListOf s, r.size < req) ∧
      getFromFreeList align s req ps = (s, none)) ∧
    (∀ b, bestFit (freeListOf s) req = some b →
      b ∈ freeListOf s ∧ req ≤ b.size ∧
      (∀ r ∈ freeListOf s, req ≤ r.size → b.size ≤ r.size) ∧
      ∃ s2 hd, getFromFreeList align s req ps = (s2, some hd) ∧
        hd.base = b.base) := by
  constructor
  · intro hb
    exact ⟨(bestFit_eq_none_iff _ _).mp hb, by simp [getFromFreeList, hb]⟩
  · intro b hb
    obtain ⟨hmem, hfit⟩ := bestFit_some_mem _ _ _ hb
    refine ⟨hmem, hfit, bestFit_some_min _ _ _ hb, ?_⟩
    have hsome := markOrSplitForest_isSome align req ps b s.roots
      (by simpa [freeListOf] using hmem)
    cases hms : markOrSplitForest align req ps b s.roots with
    | none =>
      rw [hms] at hsome
      simp at hsome
    | some pr =>
      obtain ⟨roots2, hd⟩ := pr
      refine ⟨{ s with roots := roots2 }, hd,
        by simp [getFromFreeList, hb, hms], ?_⟩
      rcases markOrSplitForest_handed align req ps b s.roots roots2 hd hms
        with rfl | rfl
      · rfl
      · rfl

/-- Witness for C3 at a pool holding one free 8-byte node and a
request of 8 bytes. -/
theorem getFromFreeList_best_fit_witness :
    (⟨0, 8⟩ : Range) ∈
      freeListOf (run 4 [Op.alloc 6 false, Op.free ⟨0, 8⟩]) ∧
    8 ≤ (Range.mk 0 8).size ∧
    (∀ r ∈ freeListOf (run 4 [Op.alloc 6 false, Op.free ⟨0, 8⟩]),
      8 ≤ r.size → (Range.mk 0 8).size ≤ r.size) ∧
    ∃ s2 hd, getFromFreeList 4
      (run 4 [Op.alloc 6 false, Op.free ⟨0, 8⟩]) 8 true = (s2, some hd) ∧
      hd.base = (Range.mk 0 8).base :=
  (getFromFreeList_best_fit 4 (run 4 [Op.alloc 6 false, Op.free ⟨0, 8⟩])
    8 true).2 ⟨0, 8⟩ (by decide)

/-- C4: freeing a pair that is not in the used list (never handed out,
or already freed) is rejected with false, and the whole state, free
list, used list and both counters included, is unchanged. -/
theorem free_unknown_pair_rejected (s : AllocState) (p : Range)
    (h : p ∉ usedListOf s) : free s p = (s, false) := by
  have hnone : returnMemoryForest true p s.roots = none := by
    refine returnMemoryForest_eq_none true p s.roots (fun t ht hmem => ?_)
    exact h (by
      simp only [usedListOf]
      exact List.mem_flatMap.mpr ⟨t, ht, hmem⟩)
  simp [free, hnone]

/-- Witness for C4: freeing a never-allocated pair on a pool with one
outstanding range fails and changes nothing. -/
theorem free_unknown_pair_rejected_witness :
    (⟨40, 8⟩ : Range) ∉ usedListOf (run 4 [Op.alloc 6 false]) ∧
    free (run 4 [Op.alloc 6 false]) ⟨40, 8⟩ =
      (run 4 [Op.alloc 6 false], false) :=
  ⟨by decide, free_unknown_pair_rejected (run 4 [Op.alloc 6 false]) ⟨40, 8⟩
    (by decide)⟩

/-- C8: with a positive alignment, every range handed out by alloc on
a reachable pool state has an aligned base and a size that is a
multiple of the alignment, on the separate path and on the pooled
path alike. -/
theorem alloc_aligned (align : Nat) (ops : List Op) (size : Nat)
    (sep : Bool) (hpos : 0 < align) :
    ((alloc align (run align ops) size sep).2).base % align = 0 ∧
    ((alloc align (run align ops) size sep).2).size % align = 0 := by
  obtain ⟨hall, hnb⟩ := run_aligned align hpos ops
  have hreq := alignUp_mod align size hpos
  cases sep with
  | true =>
    simp only [alloc, freshRoot, if_true]
    exact ⟨hnb, hreq⟩
  | false =>
    cases hgf : getFromFreeList align (run align ops) (alignUp align size)
        true with
    | mk s2 ores =>
      cases ores with
      | some hd =>
        have hra := getFromFreeList_handed_aligned align
          (alignUp align size) true (run align ops) s2 hd hall hreq hgf
        simp only [rangeAligned, Bool.and_eq_true, beq_iff_eq] at hra
        simp only [alloc, Bool.false_eq_true, if_false, hgf]
        exact hra
      | none =>
        simp only [alloc, Bool.false_eq_true, if_false, hgf, freshRoot]
        exact ⟨hnb, hreq⟩

/-- Witness for C8: a 6-byte pooled request on alignment 4 is handed
out aligned. -/
theorem alloc_aligned_witness :
    0 < 4 ∧
    (((alloc 4 (run 4 []) 6 false).2).base % 4 = 0 ∧
      ((alloc 4 (run 4 []) 6 false).2).size % 4 = 0) :=
  ⟨by decide, alloc_aligned 4 [] 6 false (by decide)⟩

end BufferAllocator

/-- Witness for C7: a plan mapping X to offset 256 in an arena at base
4096 serves X at 4096 + 256 twice. -/
theorem allocHeuristically_plan_fidelity_witness :
    (BufferAllocator.allocHeuristically
        ⟨[("X", 256)], [], 4096, 8192, false, 0, []⟩ "X" 64).2 =
      some ⟨4096 + 256, 64⟩ ∧
    (BufferAllocator.allocHeuristically
        (BufferAllocator.allocHeuristically
          ⟨[("X", 256)], [], 4096, 8192, false, 0, []⟩ "X" 64).1 "X" 128).2 =
      some ⟨4096 + 256, 128⟩ :=
  (allocHeuristically_plan_fidelity
    ⟨[("X", 256)], [], 4096, 8192, false, 0, []⟩ "X" 64 128 rfl).1 256 (by decide)

end MNN
